import Mathlib

/-!
Shallow embedding of the cryptographic core of `Tools/keywizard/dakota_keywizard.py`
(Keccak-256 sponge, secp256k1 arithmetic, AES-128 in counter mode, keystore
assembly), together with proofs settling the specification claims.

Bytes are modelled as `Nat` (values `< 256` in every reachable computation);
byte strings as `List Nat`.  Python's unbounded `int` is modelled as `Nat`
(or `Int` where the source can produce negative intermediates), with `% m`
written explicitly wherever the source reduces.  Fallible code (`die`) is
modelled with `Except`.
-/

set_option maxRecDepth 8000

namespace Keywizard

/-- Error kinds corresponding to the `die(...)` aborts of the source. -/
inductive KWError where
  | invalidKeyLength
  | invalidBlockLength
  | invalidIVLength
  | invalidPrivateKey
  | divisionByZero
  deriving DecidableEq, Repr

/-- `int.from_bytes(bs, "little")`. -/
def fromBytesLE (bs : List Nat) : Nat :=
  bs.foldr (fun b acc => b + 256 * acc) 0

/-- `x.to_bytes(n, "little")`. -/
def toBytesLE : Nat → Nat → List Nat
  | 0, _ => []
  | n + 1, x => (x % 256) :: toBytesLE n (x / 256)

/-- `int.from_bytes(bs, "big")`. -/
def fromBytesBE (bs : List Nat) : Nat :=
  bs.foldl (fun acc b => acc * 256 + b) 0

/-- `x.to_bytes(n, "big")`. -/
def toBytesBE (n x : Nat) : List Nat :=
  (toBytesLE n x).reverse

/-! ## Keccak-256 (`_KECCAK_RNDC`, `_KECCAK_ROTC`, `_rol64`, `_keccak_f1600`, `keccak_256`) -/

/-- The 24 Keccak round constants of `_KECCAK_RNDC` (the source writes them in
hex; decimal values here, same numbers). -/
def _KECCAK_RNDC : List Nat := [
  1, 32898, 9223372036854808714,
  9223372039002292224, 32907, 2147483649,
  9223372039002292353, 9223372036854808585, 138,
  136, 2147516425, 2147483658,
  2147516555, 9223372036854775947, 9223372036854808713,
  9223372036854808579, 9223372036854808578, 9223372036854775936,
  32778, 9223372039002259466, 9223372039002292353,
  9223372036854808704, 2147483649, 9223372039002292232]

def _KECCAK_ROTC : List (List Nat) := [
  [0, 36, 3, 41, 18],
  [1, 44, 10, 45, 2],
  [62, 6, 43, 15, 61],
  [28, 55, 25, 21, 56],
  [27, 20, 39, 8, 14]]

/-- 64-bit left rotation (`_rol64`). -/
def _rol64 (x n0 : Nat) : Nat :=
  let n := n0 % 64
  ((x <<< n) &&& (2 ^ 64 - 1)) ||| (x >>> (64 - n))

/-- One Keccak-f round: θ, ρ+π, χ, ι.  State is the 25-lane list, lane `x + 5*y`
at index `x + 5*y` exactly as in the source.  Python's `c[(x - 1) % 5]` is
`c[(x + 4) % 5]` for `0 ≤ x < 5`; Python's `(~b1) & b2` on 64-bit lanes is
`((2^64 - 1) ^^^ b1) &&& b2` since every lane stays below `2^64`. -/
def keccakRound (state : List Nat) (rc : Nat) : List Nat :=
  let c := (List.range 5).map (fun x =>
    state.getD x 0 ^^^ state.getD (x + 5) 0 ^^^ state.getD (x + 10) 0 ^^^
      state.getD (x + 15) 0 ^^^ state.getD (x + 20) 0)
  let d := (List.range 5).map (fun x => c.getD ((x + 4) % 5) 0 ^^^ _rol64 (c.getD ((x + 1) % 5) 0) 1)
  let s1 := (List.range 25).map (fun i => state.getD i 0 ^^^ d.getD (i % 5) 0)
  let b := (List.range 25).foldl (fun b i =>
    let x := i / 5
    let y := i % 5
    b.set (y + 5 * ((2 * x + 3 * y) % 5))
      (_rol64 (s1.getD (x + 5 * y) 0) ((_KECCAK_ROTC.getD x []).getD y 0)))
    (List.replicate 25 0)
  let s2 := (List.range 25).map (fun i =>
    let x := i % 5
    let y := i / 5
    b.getD (x + 5 * y) 0 ^^^
      (((2 ^ 64 - 1) ^^^ b.getD ((x + 1) % 5 + 5 * y) 0) &&& b.getD ((x + 2) % 5 + 5 * y) 0))
  s2.set 0 (s2.getD 0 0 ^^^ rc)

/-- `_keccak_f1600`: 24 rounds with the fixed round constants. -/
def _keccak_f1600 (state : List Nat) : List Nat :=
  _KECCAK_RNDC.foldl keccakRound state

/-- XOR a 136-byte block into the first 17 lanes (little-endian 8-byte lanes),
then permute — the body of both absorb loops of `keccak_256`. -/
def keccakAbsorbBlock (state block : List Nat) : List Nat :=
  _keccak_f1600 ((List.range 25).map (fun i =>
    if i < 17 then state.getD i 0 ^^^ fromBytesLE ((block.drop (8 * i)).take 8)
    else state.getD i 0))

/-- First absorb loop of `keccak_256`: consume full 136-byte blocks, return the
state together with the unconsumed tail (`data[off:]`).  Structural fuel
recursion (each iteration strictly shortens `data`, so `data.length + 1` fuel
always suffices and the fuel-exhausted branch is unreachable). -/
def keccakAbsorbAux : Nat → List Nat → List Nat → List Nat × List Nat
  | 0, state, data => (state, data)
  | fuel + 1, state, data =>
    if data.length < 136 then (state, data)
    else keccakAbsorbAux fuel (keccakAbsorbBlock state (data.take 136)) (data.drop 136)

def keccakAbsorb (state data : List Nat) : List Nat × List Nat :=
  keccakAbsorbAux (data.length + 1) state data

/-- Keccak original padding of the tail: append `0x01`, zero-pad to
`135 mod 136`, append `0x80`. -/
def keccakPad (tail : List Nat) : List Nat :=
  let t := tail ++ [0x01]
  (t ++ List.replicate ((135 + 136 - t.length % 136) % 136) 0) ++ [0x80]

/-- Second absorb loop of `keccak_256` over the padded tail (whose length is an
exact multiple of 136, so the loop runs `length / 136` times; fueled as above). -/
def keccakAbsorbPaddedAux : Nat → List Nat → List Nat → List Nat
  | 0, state, _ => state
  | fuel + 1, state, data =>
    if data.isEmpty then state
    else keccakAbsorbPaddedAux fuel (keccakAbsorbBlock state (data.take 136)) (data.drop 136)

def keccakAbsorbPadded (state data : List Nat) : List Nat :=
  keccakAbsorbPaddedAux (data.length + 1) state data

/-- `keccak_256(data)`: zero state, absorb, pad, absorb, squeeze 32 bytes. -/
def keccak_256 (data : List Nat) : List Nat :=
  let st1 := keccakAbsorb (List.replicate 25 0) data
  let st2 := keccakAbsorbPadded st1.1 (keccakPad st1.2)
  (((List.range 17).map (fun i => toBytesLE 8 (st2.getD i 0))).flatten).take 32

/-! ## AES-128 (`_AES_SBOX`, `_AES_RCON`, `_xtime`, `_aes_key_expand_128`,
`aes128_encrypt_block`, `aes128_ctr_crypt`) -/

def _AES_SBOX : List Nat := [
  0x63, 0x7c, 0x77, 0x7b, 0xf2, 0x6b, 0x6f, 0xc5, 0x30, 0x01, 0x67, 0x2b, 0xfe, 0xd7, 0xab, 0x76,
  0xca, 0x82, 0xc9, 0x7d, 0xfa, 0x59, 0x47, 0xf0, 0xad, 0xd4, 0xa2, 0xaf, 0x9c, 0xa4, 0x72, 0xc0,
  0xb7, 0xfd, 0x93, 0x26, 0x36, 0x3f, 0xf7, 0xcc, 0x34, 0xa5, 0xe5, 0xf1, 0x71, 0xd8, 0x31, 0x15,
  0x04, 0xc7, 0x23, 0xc3, 0x18, 0x96, 0x05, 0x9a, 0x07, 0x12, 0x80, 0xe2, 0xeb, 0x27, 0xb2, 0x75,
  0x09, 0x83, 0x2c, 0x1a, 0x1b, 0x6e, 0x5a, 0xa0, 0x52, 0x3b, 0xd6, 0xb3, 0x29, 0xe3, 0x2f, 0x84,
  0x53, 0xd1, 0x00, 0xed, 0x20, 0xfc, 0xb1, 0x5b, 0x6a, 0xcb, 0xbe, 0x39, 0x4a, 0x4c, 0x58, 0xcf,
  0xd0, 0xef, 0xaa, 0xfb, 0x43, 0x4d, 0x33, 0x85, 0x45, 0xf9, 0x02, 0x7f, 0x50, 0x3c, 0x9f, 0xa8,
  0x51, 0xa3, 0x40, 0x8f, 0x92, 0x9d, 0x38, 0xf5, 0xbc, 0xb6, 0xda, 0x21, 0x10, 0xff, 0xf3, 0xd2,
  0xcd, 0x0c, 0x13, 0xec, 0x5f, 0x97, 0x44, 0x17, 0xc4, 0xa7, 0x7e, 0x3d, 0x64, 0x5d, 0x19, 0x73,
  0x60, 0x81, 0x4f, 0xdc, 0x22, 0x2a, 0x90, 0x88, 0x46, 0xee, 0xb8, 0x14, 0xde, 0x5e, 0x0b, 0xdb,
  0xe0, 0x32, 0x3a, 0x0a, 0x49, 0x06, 0x24, 0x5c, 0xc2, 0xd3, 0xac, 0x62, 0x91, 0x95, 0xe4, 0x79,
  0xe7, 0xc8, 0x37, 0x6d, 0x8d, 0xd5, 0x4e, 0xa9, 0x6c, 0x56, 0xf4, 0xea, 0x65, 0x7a, 0xae, 0x08,
  0xba, 0x78, 0x25, 0x2e, 0x1c, 0xa6, 0xb4, 0xc6, 0xe8, 0xdd, 0x74, 0x1f, 0x4b, 0xbd, 0x8b, 0x8a,
  0x70, 0x3e, 0xb5, 0x66, 0x48, 0x03, 0xf6, 0x0e, 0x61, 0x35, 0x57, 0xb9, 0x86, 0xc1, 0x1d, 0x9e,
  0xe1, 0xf8, 0x98, 0x11, 0x69, 0xd9, 0x8e, 0x94, 0x9b, 0x1e, 0x87, 0xe9, 0xce, 0x55, 0x28, 0xdf,
  0x8c, 0xa1, 0x89, 0x0d, 0xbf, 0xe6, 0x42, 0x68, 0x41, 0x99, 0x2d, 0x0f, 0xb0, 0x54, 0xbb, 0x16]

def _AES_RCON : List Nat :=
  [0x00, 0x01, 0x02, 0x04, 0x08, 0x10, 0x20, 0x40, 0x80, 0x1B, 0x36]

/-- GF(2^8) doubling with the AES reduction polynomial. -/
def _xtime (a : Nat) : Nat :=
  if a &&& 0x80 ≠ 0 then ((a <<< 1) ^^^ 0x1B) &&& 0xFF else (a <<< 1) &&& 0xFF

def _sub_word (w : List Nat) : List Nat :=
  w.map (fun b => _AES_SBOX.getD b 0)

/-- `w[1:] + w[:1]`. -/
def _rot_word (w : List Nat) : List Nat :=
  w.drop 1 ++ w.take 1

/-- Body of the key-expansion loop for index `i = w.length` (the source mutates
`temp[0]` after the sub/rot step; here that is the head of the word). -/
def _aes_next_words (w : List (List Nat)) : List (List Nat) :=
  let i := w.length
  let temp := w.getD (i - 1) []
  let temp2 :=
    if i % 4 = 0 then
      match _sub_word (_rot_word temp) with
      | [] => []
      | b :: rest => (b ^^^ _AES_RCON.getD (i / 4) 0) :: rest
    else temp
  w ++ [List.zipWith (fun a b => (a ^^^ b) &&& 0xFF) (w.getD (i - 4) []) temp2]

def _aes_expand_iter : Nat → List (List Nat) → List (List Nat)
  | 0, w => w
  | n + 1, w => _aes_expand_iter n (_aes_next_words w)

/-- The 44 four-byte words of the schedule (`for i in range(4, 44)`). -/
def aesWords (key16 : List Nat) : List (List Nat) :=
  _aes_expand_iter 40
    [key16.take 4, (key16.drop 4).take 4, (key16.drop 8).take 4, (key16.drop 12).take 4]

/-- The 11 concatenated 16-byte round keys. -/
def aesRoundKeys (key16 : List Nat) : List (List Nat) :=
  (List.range 11).map (fun r =>
    (aesWords key16).getD (r * 4) [] ++ (aesWords key16).getD (r * 4 + 1) [] ++
      (aesWords key16).getD (r * 4 + 2) [] ++ (aesWords key16).getD (r * 4 + 3) [])

/-- `_aes_key_expand_128`, including its 16-byte key check. -/
def _aes_key_expand_128 (key16 : List Nat) : Except KWError (List (List Nat)) :=
  if key16.length ≠ 16 then .error .invalidKeyLength
  else .ok (aesRoundKeys key16)

def _aes_add_round_key (state rk : List Nat) : List Nat :=
  List.zipWith (fun a b => a ^^^ b) state rk

def _aes_sub_bytes (state : List Nat) : List Nat :=
  state.map (fun b => _AES_SBOX.getD b 0)

/-- ShiftRows on the column-major grid `idx(r, c) = r + 4*c`:
`new[r + 4*c] = old[r + 4*((c + r) % 4)]`. -/
def _aes_shift_rows (state : List Nat) : List Nat :=
  (List.range 16).map (fun i => state.getD ((i % 4) + 4 * ((i / 4 + i % 4) % 4)) 0)

/-- MixColumns on one column `(a0, a1, a2, a3)` (the source XORs into the
snapshot values `a`, so every output uses the pre-update column). -/
def _aes_mix_column (a0 a1 a2 a3 : Nat) : List Nat :=
  let t := a0 ^^^ a1 ^^^ a2 ^^^ a3
  [a0 ^^^ (t ^^^ _xtime (a0 ^^^ a1)), a1 ^^^ (t ^^^ _xtime (a1 ^^^ a2)),
   a2 ^^^ (t ^^^ _xtime (a2 ^^^ a3)), a3 ^^^ (t ^^^ _xtime (a3 ^^^ a0))]

def _aes_mix_columns (state : List Nat) : List Nat :=
  ((List.range 4).map (fun c =>
    _aes_mix_column (state.getD (4 * c) 0) (state.getD (4 * c + 1) 0)
      (state.getD (4 * c + 2) 0) (state.getD (4 * c + 3) 0))).flatten

/-- `aes128_encrypt_block`: block-length check, key expansion (which performs
the key-length check), initial key-add, 9 full rounds, final round without
MixColumns. -/
def aes128_encrypt_block (key16 block16 : List Nat) : Except KWError (List Nat) :=
  if block16.length ≠ 16 then .error .invalidBlockLength
  else
    match _aes_key_expand_128 key16 with
    | .error e => .error e
    | .ok rks =>
      let s0 := _aes_add_round_key block16 (rks.getD 0 [])
      let s9 := (List.range' 1 9).foldl
        (fun st rnd =>
          _aes_add_round_key (_aes_mix_columns (_aes_shift_rows (_aes_sub_bytes st)))
            (rks.getD rnd [])) s0
      .ok (_aes_add_round_key (_aes_shift_rows (_aes_sub_bytes s9)) (rks.getD 10 []))

/-- The block loop of `aes128_ctr_crypt` (`for off in range(0, len(data), 16)`),
fueled structurally: each iteration drops 16 bytes, so `data.length` fuel
suffices and the fuel-exhausted branch is unreachable from `aes128_ctr_crypt`. -/
def aes128_ctr_loop (key16 : List Nat) : Nat → Nat → List Nat → Except KWError (List Nat)
  | _, _, [] => .ok []
  | 0, _, _ :: _ => .ok []
  | fuel + 1, counter, a :: l =>
    match aes128_encrypt_block key16 (toBytesBE 16 counter) with
    | .error e => .error e
    | .ok ks =>
      match aes128_ctr_loop key16 fuel ((counter + 1) % 2 ^ 128) ((a :: l).drop 16) with
      | .error e => .error e
      | .ok rest => .ok (List.zipWith (fun x y => x ^^^ y) ((a :: l).take 16) ks ++ rest)

/-- `aes128_ctr_crypt`: IV-length check, then the big-endian counter stream. -/
def aes128_ctr_crypt (key16 iv16 data : List Nat) : Except KWError (List Nat) :=
  if iv16.length ≠ 16 then .error .invalidIVLength
  else aes128_ctr_loop key16 data.length (fromBytesBE iv16) data

/-! ## secp256k1 (`SECP_P`, `SECP_N`, `ECPoint`, `_inv_mod`, `_ec_add`,
`_ec_mul`, `privkey_to_pubkey`) -/

def SECP_P : Nat := 0xFFFFFFFFFFFFFFFFFFFFFFFFFFFFFFFFFFFFFFFFFFFFFFFFFFFFFFFEFFFFFC2F
def SECP_N : Nat := 0xFFFFFFFFFFFFFFFFFFFFFFFFFFFFFFFEBAAEDCE6AF48A03BBFD25E8CD0364141
def SECP_GX : Nat :=
  55066263022277343669578718895168534326250603453777594175500187360389116729240
def SECP_GY : Nat :=
  32670510020758816978083085130507043184471273380659243275938904335757337482424

/-- Curve points: Python `int` coordinates (`Int`, since intermediate values
such as `p2.y - p1.y` can be negative) plus the infinity flag.  A frozen
dataclass compared componentwise: structural equality. -/
structure ECPoint where
  x : Int
  y : Int
  inf : Bool := false
  deriving DecidableEq

def G : ECPoint := { x := (SECP_GX : Int), y := (SECP_GY : Int), inf := false }

def INF : ECPoint := { x := 0, y := 0, inf := true }

/-- Fueled square-and-multiply: `powModAux fuel b e m = b ^ e % m` whenever
`e ≤ fuel` (each step halves `e`, so `e` itself is always enough fuel). -/
def powModAux : Nat → Nat → Nat → Nat → Nat
  | 0, _, _, m => 1 % m
  | fuel + 1, b, e, m =>
    if e = 0 then 1 % m
    else
      let h := powModAux fuel b (e / 2) m
      let h2 := h * h % m
      if e % 2 = 1 then h2 * b % m else h2

/-- The semantics of Python's three-argument `pow(b, e, m)` for a non-negative
base (a negative base is reduced into `[0, m)` first by the caller, exactly as
Python's `pow` does). -/
def powMod (b e m : Nat) : Nat :=
  powModAux e b e m

/-- `_inv_mod(k, p)`: `ZeroDivisionError` exactly when the integer `k` is `0`,
otherwise Python's `pow(k, p - 2, p)`. -/
def _inv_mod (k : Int) (p : Nat) : Except KWError Int :=
  if k = 0 then .error .divisionByZero
  else .ok ((powMod ((k % (p : Int)).toNat) (p - 2) p : Nat) : Int)

/-- `_ec_add`: the source's branch structure verbatim; the slope computations
go through `_inv_mod` and hence live in `Except`. -/
def _ec_add (p1 p2 : ECPoint) : Except KWError ECPoint :=
  if p1.inf = true then .ok p2
  else if p2.inf = true then .ok p1
  else if p1.x = p2.x ∧ (p1.y ≠ p2.y ∨ p1.y = 0) then .ok INF
  else
    match (if p1.x = p2.x ∧ p1.y = p2.y
        then (_inv_mod (2 * p1.y) SECP_P).map
          (fun inv => (3 * p1.x * p1.x * inv) % (SECP_P : Int))
        else (_inv_mod (p2.x - p1.x) SECP_P).map
          (fun inv => ((p2.y - p1.y) * inv) % (SECP_P : Int))) with
    | .error e => .error e
    | .ok lam =>
      let x3 := (lam * lam - p1.x - p2.x) % (SECP_P : Int)
      let y3 := (lam * (p1.x - x3) - p1.y) % (SECP_P : Int)
      .ok { x := x3, y := y3, inf := false }

/-- The double-and-add loop of `_ec_mul` (`while k:`), fueled structurally:
each iteration at least halves `k`, so `k` fuel suffices and the
fuel-exhausted branch is unreachable from `_ec_mul`. -/
def _ec_mul_loop : Nat → ECPoint → ECPoint → Nat → Except KWError ECPoint
  | _, res, _, 0 => .ok res
  | 0, res, _, _ + 1 => .ok res
  | fuel + 1, res, add, k + 1 =>
    match (if (k + 1) % 2 = 1 then _ec_add res add else .ok res) with
    | .error e => .error e
    | .ok res' =>
      match _ec_add add add with
      | .error e => .error e
      | .ok add' => _ec_mul_loop fuel res' add' ((k + 1) / 2)

/-- The non-negative-scalar path of `_ec_mul` (also the body of its one-step
recursion on a negated scalar, which re-checks the guard exactly as the
recursive call does). -/
def _ec_mul_nonneg (k : Nat) (p : ECPoint) : Except KWError ECPoint :=
  if (k : Int) % (SECP_N : Int) = 0 ∨ p.inf = true then .ok INF
  else _ec_mul_loop k INF p k

/-- `_ec_mul`: scalars divisible by `N` (Python `%`, i.e. `emod`) or the point
at infinity give `INF`; a negative scalar negates the point's `y` modulo `P`
and multiplies by the absolute value. -/
def _ec_mul (k : Int) (p : ECPoint) : Except KWError ECPoint :=
  if k % (SECP_N : Int) = 0 ∨ p.inf = true then .ok INF
  else if k < 0 then
    _ec_mul_nonneg (-k).toNat { x := p.x, y := (-p.y) % (SECP_P : Int), inf := false }
  else _ec_mul_nonneg k.toNat p

/-- `privkey_to_pubkey`: 32-byte check, range check `0 < k < N` (both `die`
calls modelled as `InvalidPrivateKey`), scalar multiplication by `G`, then the
`b"\x04" + x + y` and `x + y` encodings (`to_bytes(32, "big")`). -/
def privkey_to_pubkey (priv : List Nat) : Except KWError (List Nat × List Nat) :=
  if priv.length ≠ 32 then .error .invalidPrivateKey
  else
    let k := fromBytesBE priv
    if k ≤ 0 ∨ SECP_N ≤ k then .error .invalidPrivateKey
    else
      match _ec_mul (k : Int) G with
      | .error e => .error e
      | .ok pt =>
        let x := toBytesBE 32 pt.x.toNat
        let y := toBytesBE 32 pt.y.toNat
        .ok (4 :: (x ++ y), x ++ y)

/-- The spec's CurvePoint invariant: the point at infinity, or affine
coordinates in `[0, P)` satisfying `y² ≡ x³ + 7 (mod P)`. -/
def onCurve (p : ECPoint) : Prop :=
  p.inf = true ∨
    (0 ≤ p.x ∧ p.x < (SECP_P : Int) ∧ 0 ≤ p.y ∧ p.y < (SECP_P : Int) ∧
      p.y ^ 2 % (SECP_P : Int) = (p.x ^ 3 + 7) % (SECP_P : Int))

instance (p : ECPoint) : Decidable (onCurve p) := by
  unfold onCurve
  infer_instance

/-! ## Keystore assembly (the keystore branch of `generate_eoa`) -/

/-- The crypto fields of the V3 keystore record assembled by `generate_eoa`. -/
structure KeystoreCrypto where
  iv : List Nat
  salt : List Nat
  dklen : Nat
  c : Nat
  ciphertext : List Nat
  mac : List Nat
  deriving DecidableEq

/-- The keystore branch of `generate_eoa`: substitute the empty string for a
`None` password, derive `dklen = 32` bytes by PBKDF2-HMAC-SHA256 with
`c = 262144` iterations, split the derivation into encryption key
(`derived[:16]`) and MAC key (`derived[16:32]`), encrypt the private key with
AES-128-CTR, and authenticate with `keccak_256(mac_key ++ ciphertext)`.
The PBKDF2 primitive (`hashlib.pbkdf2_hmac`) and the UTF-8 encoder
(`str.encode`) are external to the file and appear as function parameters;
the salt and IV are drawn by `secrets.token_bytes(16)` in the source and are
parameters here. -/
def generate_eoa_keystore
    (pbkdf2_hmac_sha256 : List Nat → List Nat → Nat → Nat → List Nat)
    (utf8_encode : String → List Nat)
    (priv salt iv : List Nat) (keystore_password : Option String) :
    Except KWError KeystoreCrypto :=
  let password := keystore_password.getD ""
  let dklen := 32
  let c := 262144
  let derived := pbkdf2_hmac_sha256 (utf8_encode password) salt c dklen
  let enc_key := derived.take 16
  match aes128_ctr_crypt enc_key iv priv with
  | .error e => .error e
  | .ok ciphertext =>
    .ok { iv := iv, salt := salt, dklen := dklen, c := c, ciphertext := ciphertext,
          mac := keccak_256 (((derived.drop 16).take 16) ++ ciphertext) }

def hexDigits : List Char :=
  "0123456789abcdef".toList

/-- Lowercase hex rendering of a byte string (`bytes.hex()`). -/
def bytesToHex (bs : List Nat) : String :=
  String.mk ((bs.map (fun b => [hexDigits.getD (b / 16) ' ', hexDigits.getD (b % 16) ' '])).flatten)

end Keywizard

namespace Keywizard

/-- C1: the claim's 63-character hex string is not the hex of `keccak_256(b"")`
(the spec dropped a digit: the true digest ends `...a470`, not `...a70`). -/
theorem keccak256_empty_spec_hex_wrong :
    bytesToHex (keccak_256 []) ≠
      "c5d2460186f7233c927e7db2dcc703c0e500b653ca82273b7bfad8045d85a70" := by
  decide

/-- C1 (amended): `keccak_256` of the empty byte string is the 32-byte digest
whose lowercase hex is `c5d2460186f7233c927e7db2dcc703c0e500b653ca82273b7bfad8045d85a470`. -/
theorem keccak256_empty_vector :
    keccak_256 [] =
      [0xc5, 0xd2, 0x46, 0x01, 0x86, 0xf7, 0x23, 0x3c, 0x92, 0x7e, 0x7d, 0xb2,
       0xdc, 0xc7, 0x03, 0xc0, 0xe5, 0x00, 0xb6, 0x53, 0xca, 0x82, 0x27, 0x3b,
       0x7b, 0xfa, 0xd8, 0x04, 0x5d, 0x85, 0xa4, 0x70] ∧
    bytesToHex (keccak_256 []) =
      "c5d2460186f7233c927e7db2dcc703c0e500b653ca82273b7bfad8045d85a470" := by
  constructor
  · decide
  · decide

/-! ### Supporting lemmas for the AES length and involution claims -/

theorem getD_mem_of_lt {α : Type} (l : List α) (d : α) (n : Nat) (h : n < l.length) :
    l.getD n d ∈ l := by
  rw [List.getD_eq_getElem l d h]
  exact List.getElem_mem h

theorem toBytesLE_length (n x : Nat) : (toBytesLE n x).length = n := by
  induction n generalizing x with
  | zero => rfl
  | succ n ih => simp [toBytesLE, ih]

theorem toBytesBE_length (n x : Nat) : (toBytesBE n x).length = n := by
  simp [toBytesBE, toBytesLE_length]

theorem _rot_word_length (w : List Nat) : (_rot_word w).length = w.length := by
  simp [_rot_word]
  omega

theorem _sub_word_length (w : List Nat) : (_sub_word w).length = w.length := by
  simp [_sub_word]

theorem _aes_next_words_spec (w : List (List Nat)) (h4 : 4 ≤ w.length)
    (hall : ∀ x ∈ w, x.length = 4) :
    (_aes_next_words w).length = w.length + 1 ∧ ∀ x ∈ _aes_next_words w, x.length = 4 := by
  have htemp4 : (w.getD (w.length - 1) []).length = 4 :=
    hall _ (getD_mem_of_lt _ _ _ (by omega))
  have hprev4 : (w.getD (w.length - 4) []).length = 4 :=
    hall _ (getD_mem_of_lt _ _ _ (by omega))
  have hsub : (_sub_word (_rot_word (w.getD (w.length - 1) []))).length = 4 := by
    rw [_sub_word_length, _rot_word_length, htemp4]
  constructor
  · simp [_aes_next_words]
  · intro x hx
    simp only [_aes_next_words, List.mem_append, List.mem_singleton] at hx
    rcases hx with hx | hx
    · exact hall x hx
    · subst hx
      rw [List.length_zipWith, hprev4]
      by_cases hmod : w.length % 4 = 0
      · rw [if_pos hmod]
        cases hmatch : _sub_word (_rot_word (w.getD (w.length - 1) [])) with
        | nil => rw [hmatch] at hsub; simp at hsub
        | cons b rest =>
          rw [hmatch] at hsub
          simp only [List.length_cons] at hsub
          simp only [hmatch, List.length_cons]
          omega
      · rw [if_neg hmod, htemp4, Nat.min_self]

theorem _aes_expand_iter_spec :
    ∀ (n : Nat) (w : List (List Nat)), 4 ≤ w.length → (∀ x ∈ w, x.length = 4) →
      (_aes_expand_iter n w).length = w.length + n ∧
        ∀ x ∈ _aes_expand_iter n w, x.length = 4 := by
  intro n
  induction n with
  | zero => intro w _ hall; exact ⟨rfl, hall⟩
  | succ n ih =>
    intro w h4 hall
    obtain ⟨hlen, hall'⟩ := _aes_next_words_spec w h4 hall
    obtain ⟨hlen', hall''⟩ := ih (_aes_next_words w) (by omega) hall'
    refine ⟨?_, hall''⟩
    show (_aes_expand_iter n (_aes_next_words w)).length = w.length + (n + 1)
    omega

theorem aesWords_spec (key16 : List Nat) (hk : key16.length = 16) :
    (aesWords key16).length = 44 ∧ ∀ x ∈ aesWords key16, x.length = 4 := by
  have h := _aes_expand_iter_spec 40
    [key16.take 4, (key16.drop 4).take 4, (key16.drop 8).take 4, (key16.drop 12).take 4]
    (by simp)
    (by
      intro x hx
      simp only [List.mem_cons, List.not_mem_nil, or_false] at hx
      rcases hx with rfl | rfl | rfl | rfl <;> simp [hk])
  simpa [aesWords] using h

theorem aesRoundKeys_spec (key16 : List Nat) (hk : key16.length = 16) :
    (aesRoundKeys key16).length = 11 ∧ ∀ rk ∈ aesRoundKeys key16, rk.length = 16 := by
  obtain ⟨hw, hall⟩ := aesWords_spec key16 hk
  constructor
  · simp [aesRoundKeys]
  · intro rk hrk
    simp only [aesRoundKeys, List.mem_map, List.mem_range] at hrk
    obtain ⟨r, hr, rfl⟩ := hrk
    have h0 := hall _ (getD_mem_of_lt (aesWords key16) [] (r * 4) (by omega))
    have h1 := hall _ (getD_mem_of_lt (aesWords key16) [] (r * 4 + 1) (by omega))
    have h2 := hall _ (getD_mem_of_lt (aesWords key16) [] (r * 4 + 2) (by omega))
    have h3 := hall _ (getD_mem_of_lt (aesWords key16) [] (r * 4 + 3) (by omega))
    simp only [List.length_append, h0, h1, h2, h3]

theorem _aes_shift_rows_length (s : List Nat) : (_aes_shift_rows s).length = 16 := by
  simp [_aes_shift_rows]

theorem _aes_mix_column_length (a0 a1 a2 a3 : Nat) :
    (_aes_mix_column a0 a1 a2 a3).length = 4 := rfl

theorem _aes_mix_columns_length (s : List Nat) : (_aes_mix_columns s).length = 16 := by
  simp only [_aes_mix_columns, List.length_flatten, List.map_map]
  rw [show (List.length ∘ fun c =>
      _aes_mix_column (s.getD (4 * c) 0) (s.getD (4 * c + 1) 0) (s.getD (4 * c + 2) 0)
        (s.getD (4 * c + 3) 0)) = fun _ => 4 from funext (fun c => rfl)]
  decide

theorem _aes_sub_bytes_length (s : List Nat) : (_aes_sub_bytes s).length = s.length := by
  simp [_aes_sub_bytes]

theorem _aes_add_round_key_length (s rk : List Nat) :
    (_aes_add_round_key s rk).length = min s.length rk.length := by
  simp [_aes_add_round_key]

theorem foldl_rounds_length (key16 : List Nat) (hk : key16.length = 16) :
    ∀ (l : List Nat), (∀ r ∈ l, r < 11) → ∀ st : List Nat, st.length = 16 →
      (l.foldl (fun st rnd =>
        _aes_add_round_key (_aes_mix_columns (_aes_shift_rows (_aes_sub_bytes st)))
          ((aesRoundKeys key16).getD rnd [])) st).length = 16 := by
  obtain ⟨hlen, hall⟩ := aesRoundKeys_spec key16 hk
  intro l
  induction l with
  | nil => intro _ st hst; simpa using hst
  | cons r rs ih =>
    intro hmem st hst
    have hr : r < 11 := hmem r (by simp)
    have hrk : ((aesRoundKeys key16).getD r []).length = 16 :=
      hall _ (getD_mem_of_lt _ _ _ (by omega))
    simp only [List.foldl_cons]
    exact ih (fun x hx => hmem x (by simp [hx]))
      _ (by rw [_aes_add_round_key_length, _aes_mix_columns_length, hrk, Nat.min_self])

theorem aes128_encrypt_block_unfold (key16 block16 : List Nat)
    (hk : key16.length = 16) (hb : block16.length = 16) :
    aes128_encrypt_block key16 block16 = .ok
      (_aes_add_round_key (_aes_shift_rows (_aes_sub_bytes
        ((List.range' 1 9).foldl (fun st rnd =>
          _aes_add_round_key (_aes_mix_columns (_aes_shift_rows (_aes_sub_bytes st)))
            ((aesRoundKeys key16).getD rnd []))
          (_aes_add_round_key block16 ((aesRoundKeys key16).getD 0 [])))))
        ((aesRoundKeys key16).getD 10 [])) := by
  rw [aes128_encrypt_block, _aes_key_expand_128, if_neg (fun h => h hb), if_neg (fun h => h hk)]

theorem aes128_encrypt_block_ok (key16 block16 : List Nat)
    (hk : key16.length = 16) (hb : block16.length = 16) :
    ∃ ks, aes128_encrypt_block key16 block16 = .ok ks ∧ ks.length = 16 := by
  obtain ⟨hlen, hall⟩ := aesRoundKeys_spec key16 hk
  have h10 : ((aesRoundKeys key16).getD 10 []).length = 16 :=
    hall _ (getD_mem_of_lt _ _ _ (by omega))
  exact ⟨_, aes128_encrypt_block_unfold key16 block16 hk hb, by
    rw [_aes_add_round_key_length, _aes_shift_rows_length, h10, Nat.min_self]⟩

theorem aes128_ctr_loop_ok (key16 : List Nat) (hk : key16.length = 16) :
    ∀ (fuel : Nat) (data : List Nat) (counter : Nat), data.length ≤ fuel →
      ∃ out, aes128_ctr_loop key16 fuel counter data = .ok out ∧
        out.length = data.length := by
  intro fuel
  induction fuel with
  | zero =>
    intro data counter hle
    have : data = [] := List.eq_nil_of_length_eq_zero (by omega)
    subst this
    exact ⟨[], rfl, rfl⟩
  | succ fuel ih =>
    intro data counter hle
    cases data with
    | nil => exact ⟨[], rfl, rfl⟩
    | cons a l =>
      simp only [List.length_cons] at hle
      obtain ⟨ks, hks, hkslen⟩ :=
        aes128_encrypt_block_ok key16 (toBytesBE 16 counter) hk (toBytesBE_length 16 counter)
      obtain ⟨rest, hrest, hrestlen⟩ :=
        ih ((a :: l).drop 16) ((counter + 1) % 2 ^ 128)
          (by simp only [List.length_drop, List.length_cons]; omega)
      refine ⟨List.zipWith (fun x y => x ^^^ y) ((a :: l).take 16) ks ++ rest, ?_, ?_⟩
      · simp only [aes128_ctr_loop, hks, hrest]
      · rw [List.length_append, List.length_zipWith, hkslen, hrestlen]
        simp only [List.length_take, List.length_drop, List.length_cons]
        omega

theorem zipWith_xor_invol :
    ∀ (bs ks : List Nat), bs.length ≤ ks.length →
      List.zipWith (fun x y => x ^^^ y) (List.zipWith (fun x y => x ^^^ y) bs ks) ks = bs := by
  intro bs
  induction bs with
  | nil => intro ks _; simp
  | cons b bs ih =>
    intro ks hle
    cases ks with
    | nil => simp at hle
    | cons k ks =>
      simp only [List.zipWith_cons_cons, List.cons.injEq]
      refine ⟨?_, ih ks (by simpa using hle)⟩
      rw [Nat.xor_assoc, Nat.xor_self, Nat.xor_zero]

theorem aes128_ctr_loop_invol (key16 : List Nat) (hk : key16.length = 16) :
    ∀ (fuel : Nat) (data : List Nat) (counter : Nat) (out : List Nat),
      data.length ≤ fuel →
      aes128_ctr_loop key16 fuel counter data = .ok out →
      aes128_ctr_loop key16 fuel counter out = .ok data := by
  intro fuel
  induction fuel with
  | zero =>
    intro data counter out hle hok
    have hdata : data = [] := List.eq_nil_of_length_eq_zero (by omega)
    subst hdata
    cases hok
    rfl
  | succ fuel ih =>
    intro data counter out hle hok
    cases data with
    | nil => cases hok; rfl
    | cons a l =>
      simp only [List.length_cons] at hle
      obtain ⟨ks, hks, hkslen⟩ :=
        aes128_encrypt_block_ok key16 (toBytesBE 16 counter) hk (toBytesBE_length 16 counter)
      obtain ⟨rest, hrest, hrestlen⟩ :=
        aes128_ctr_loop_ok key16 hk fuel ((a :: l).drop 16) ((counter + 1) % 2 ^ 128)
          (by simp only [List.length_drop, List.length_cons]; omega)
      rw [aes128_ctr_loop, hks, hrest] at hok
      have hout : out = List.zipWith (fun x y => x ^^^ y) ((a :: l).take 16) ks ++ rest := by
        cases hok
        rfl
      have hziplen :
          (List.zipWith (fun x y => x ^^^ y) ((a :: l).take 16) ks).length
            = min (a :: l).length 16 := by
        rw [List.length_zipWith, List.length_take, hkslen]
        omega
      have hrestnil : (a :: l).length < 16 → rest = [] := fun hc =>
        List.eq_nil_of_length_eq_zero
          (by rw [hrestlen]; simp only [List.length_drop]; omega)
      have hrec : aes128_ctr_loop key16 fuel ((counter + 1) % 2 ^ 128) rest
          = .ok ((a :: l).drop 16) :=
        ih ((a :: l).drop 16) _ rest
          (by simp only [List.length_drop, List.length_cons]; omega) hrest
      have htake : out.take 16 = List.zipWith (fun x y => x ^^^ y) ((a :: l).take 16) ks := by
        rw [hout, List.take_append_eq_append_take,
          List.take_of_length_le (by rw [hziplen]; omega)]
        rcases le_or_lt 16 (a :: l).length with hc | hc
        · have h0 : 16 - (List.zipWith (fun x y => x ^^^ y) ((a :: l).take 16) ks).length = 0 := by
            rw [hziplen]
            omega
          rw [h0, List.take_zero, List.append_nil]
        · rw [hrestnil hc]
          simp
      have hdrop : out.drop 16 = rest := by
        rw [hout, List.drop_append_eq_append_drop,
          List.drop_eq_nil_of_le (by rw [hziplen]; omega), List.nil_append]
        rcases le_or_lt 16 (a :: l).length with hc | hc
        · have h0 : 16 - (List.zipWith (fun x y => x ^^^ y) ((a :: l).take 16) ks).length = 0 := by
            rw [hziplen]
            omega
          rw [h0, List.drop_zero]
        · rw [hrestnil hc]
          simp
      have houtne : out ≠ [] := by
        rw [hout]
        intro hnil
        have hlen0 := congrArg List.length hnil
        rw [List.length_append, hziplen] at hlen0
        simp only [List.length_cons, List.length_nil] at hlen0
        omega
      cases hw : out with
      | nil => exact absurd hw houtne
      | cons o os =>
        subst hw
        simp only [aes128_ctr_loop, hks, hdrop, hrec, htake]
        rw [zipWith_xor_invol ((a :: l).take 16) ks
          (by rw [hkslen, List.length_take]; omega), List.take_append_drop]

end Keywizard

namespace Keywizard

/-- C3: the AES-128 block transform reproduces the FIPS-197 appendix C vector:
encrypting `00112233445566778899aabbccddeeff` under key
`000102030405060708090a0b0c0d0e0f` yields `69c4e0d86a7b0430d8cdb78070b4c55a`. -/
theorem aes128_block_fips197_vector :
    aes128_encrypt_block
      [0x00, 0x01, 0x02, 0x03, 0x04, 0x05, 0x06, 0x07,
       0x08, 0x09, 0x0a, 0x0b, 0x0c, 0x0d, 0x0e, 0x0f]
      [0x00, 0x11, 0x22, 0x33, 0x44, 0x55, 0x66, 0x77,
       0x88, 0x99, 0xaa, 0xbb, 0xcc, 0xdd, 0xee, 0xff] =
    .ok [0x69, 0xc4, 0xe0, 0xd8, 0x6a, 0x7b, 0x04, 0x30,
         0xd8, 0xcd, 0xb7, 0x80, 0x70, 0xb4, 0xc5, 0x5a] := by
  rfl

/-- C2: for every 16-byte key, 16-byte IV and arbitrary data, `aes128_ctr_crypt`
succeeds, its output has exactly the length of `data`, and applying it again
with the same key and IV recovers `data`. -/
theorem aes128_ctr_crypt_involution (key16 iv16 data : List Nat)
    (hk : key16.length = 16) (hiv : iv16.length = 16) :
    ∃ ct, aes128_ctr_crypt key16 iv16 data = .ok ct ∧ ct.length = data.length ∧
      aes128_ctr_crypt key16 iv16 ct = .ok data := by
  obtain ⟨ct, hct, hctlen⟩ :=
    aes128_ctr_loop_ok key16 hk data.length data (fromBytesBE iv16) le_rfl
  refine ⟨ct, ?_, hctlen, ?_⟩
  · rw [aes128_ctr_crypt, if_neg (fun h => h hiv)]
    exact hct
  · rw [aes128_ctr_crypt, if_neg (fun h => h hiv), hctlen]
    exact aes128_ctr_loop_invol key16 hk data.length data (fromBytesBE iv16) ct le_rfl hct

/-- C2 witness: concrete key, IV and 3-byte (non-block-multiple) data. -/
theorem aes128_ctr_crypt_involution_witness :
    ∃ ct, aes128_ctr_crypt (List.replicate 16 0) (List.replicate 16 0) [1, 2, 3] = .ok ct ∧
      ct.length = ([1, 2, 3] : List Nat).length ∧
      aes128_ctr_crypt (List.replicate 16 0) (List.replicate 16 0) ct = .ok [1, 2, 3] :=
  aes128_ctr_crypt_involution (List.replicate 16 0) (List.replicate 16 0) [1, 2, 3]
    (by decide) (by decide)

/-- C9 (amended): a wrong-length IV always aborts with `InvalidIVLength`; a
wrong-length key aborts with `InvalidKeyLength` whenever `data` is nonempty.
The key length is only checked inside the per-block encryption, so with empty
data a wrong-length key is never detected and the empty output is returned. -/
theorem aes128_ctr_crypt_length_checks :
    (∀ key16 iv16 data : List Nat, iv16.length ≠ 16 →
      aes128_ctr_crypt key16 iv16 data = .error .invalidIVLength) ∧
    (∀ key16 iv16 data : List Nat, key16.length ≠ 16 → iv16.length = 16 → data ≠ [] →
      aes128_ctr_crypt key16 iv16 data = .error .invalidKeyLength) ∧
    (∀ key16 iv16 : List Nat, iv16.length = 16 →
      aes128_ctr_crypt key16 iv16 [] = .ok []) := by
  refine ⟨?_, ?_, ?_⟩
  · intro key iv data hiv
    rw [aes128_ctr_crypt, if_pos hiv]
  · intro key iv data hk hiv hne
    rw [aes128_ctr_crypt, if_neg (fun h => h hiv)]
    cases data with
    | nil => exact absurd rfl hne
    | cons a l =>
      have hblock : aes128_encrypt_block key (toBytesBE 16 (fromBytesBE iv)) =
          .error .invalidKeyLength := by
        rw [aes128_encrypt_block, if_neg (fun h => h (toBytesBE_length 16 (fromBytesBE iv))),
          _aes_key_expand_128, if_pos hk]
      simp only [List.length_cons, aes128_ctr_loop, hblock]
  · intro key iv hiv
    rw [aes128_ctr_crypt, if_neg (fun h => h hiv)]
    rfl

/-- C9 witness: both failure branches at concrete inputs. -/
theorem aes128_ctr_crypt_length_checks_witness :
    aes128_ctr_crypt (List.replicate 16 0) [0] [1] = .error .invalidIVLength ∧
    aes128_ctr_crypt [0] (List.replicate 16 0) [1] = .error .invalidKeyLength :=
  ⟨aes128_ctr_crypt_length_checks.1 _ _ _ (by decide),
   aes128_ctr_crypt_length_checks.2.1 _ _ _ (by decide) (by decide) (by decide)⟩

/-- C9 counterexample: with a 1-byte key, a 16-byte IV and empty data,
`aes128_ctr_crypt` succeeds with empty output instead of failing fast with
`InvalidKeyLength` as the claim requires for every data input. -/
theorem aes128_ctr_crypt_badkey_empty_no_error :
    ([0] : List Nat).length ≠ 16 ∧ (List.replicate 16 (0 : Nat)).length = 16 ∧
      aes128_ctr_crypt [0] (List.replicate 16 0) [] = .ok [] :=
  ⟨by decide, by decide, rfl⟩

/-- C4: for a 32-byte private key, a 16-byte IV and any salt and password, the
keystore ciphertext equals `aes128_ctr_crypt` of the private key under bytes
0-15 of the 32-byte PBKDF2-derived key (hence is exactly 32 bytes), and the
MAC equals `keccak_256` of bytes 16-31 of the derived key followed by the
ciphertext, MAC key first. -/
theorem generate_eoa_keystore_spec
    (pbkdf2 : List Nat → List Nat → Nat → Nat → List Nat)
    (utf8 : String → List Nat) (priv salt iv : List Nat) (pw : Option String)
    (hpriv : priv.length = 32) (hiv : iv.length = 16)
    (hderived : (pbkdf2 (utf8 (pw.getD "")) salt 262144 32).length = 32) :
    ∃ ct,
      aes128_ctr_crypt ((pbkdf2 (utf8 (pw.getD "")) salt 262144 32).take 16) iv priv
        = .ok ct ∧
      ct.length = 32 ∧
      generate_eoa_keystore pbkdf2 utf8 priv salt iv pw = .ok
        { iv := iv, salt := salt, dklen := 32, c := 262144, ciphertext := ct,
          mac := keccak_256
            ((((pbkdf2 (utf8 (pw.getD "")) salt 262144 32).drop 16).take 16) ++ ct) } := by
  obtain ⟨ct, hct, hctlen, _⟩ :=
    aes128_ctr_crypt_involution ((pbkdf2 (utf8 (pw.getD "")) salt 262144 32).take 16) iv priv
      (by rw [List.length_take, hderived]; decide) hiv
  refine ⟨ct, hct, by rw [hctlen, hpriv], ?_⟩
  simp only [generate_eoa_keystore, hct]

/-- C4 witness: concrete derivation function, encoder, private key, salt, IV
and absent password. -/
theorem generate_eoa_keystore_spec_witness :
    ∃ ct,
      aes128_ctr_crypt (((fun (_ : List Nat) (_ : List Nat) (_ : Nat) (_ : Nat) =>
          List.replicate 32 (7 : Nat)) [] (List.replicate 16 1) 262144 32).take 16)
        (List.replicate 16 2) (List.replicate 32 3) = .ok ct ∧
      ct.length = 32 ∧
      generate_eoa_keystore (fun _ _ _ _ => List.replicate 32 7) (fun _ => [])
        (List.replicate 32 3) (List.replicate 16 1) (List.replicate 16 2) none = .ok
        { iv := List.replicate 16 2, salt := List.replicate 16 1, dklen := 32, c := 262144,
          ciphertext := ct,
          mac := keccak_256
            ((((fun (_ : List Nat) (_ : List Nat) (_ : Nat) (_ : Nat) =>
                List.replicate 32 (7 : Nat)) [] (List.replicate 16 1) 262144 32).drop 16).take 16
              ++ ct) } :=
  generate_eoa_keystore_spec (fun _ _ _ _ => List.replicate 32 7) (fun _ => [])
    (List.replicate 32 3) (List.replicate 16 1) (List.replicate 16 2) none
    (by decide) (by decide) (by decide)

/-- C10: a `None` keystore password is silently replaced by the empty string —
the produced keystore record coincides with the explicit empty-string-password
one for every derivation function, encoder, private key, salt and IV, with no
error. -/
theorem generate_eoa_keystore_none_password
    (pbkdf2 : List Nat → List Nat → Nat → Nat → List Nat) (utf8 : String → List Nat)
    (priv salt iv : List Nat) :
    generate_eoa_keystore pbkdf2 utf8 priv salt iv none =
      generate_eoa_keystore pbkdf2 utf8 priv salt iv (some "") := rfl

/-! ### Supporting lemmas for the secp256k1 claims -/

theorem powModAux_correct :
    ∀ (fuel b e m : Nat), e ≤ fuel → powModAux fuel b e m = b ^ e % m := by
  intro fuel
  induction fuel with
  | zero =>
    intro b e m he
    have he0 : e = 0 := by omega
    subst he0
    simp [powModAux]
  | succ fuel ih =>
    intro b e m he
    by_cases he0 : e = 0
    · subst he0
      simp [powModAux]
    · simp only [powModAux, if_neg he0]
      rw [ih b (e / 2) m (by omega)]
      have hmm : b ^ (e / 2) % m * (b ^ (e / 2) % m) % m = b ^ (e / 2) * b ^ (e / 2) % m :=
        (Nat.mul_mod _ _ _).symm
      by_cases hodd : e % 2 = 1
      · rw [if_pos hodd, hmm, Nat.mod_mul_mod]
        conv_rhs => rw [show e = e / 2 + e / 2 + 1 by omega]
        rw [pow_add, pow_add, pow_one]
      · rw [if_neg hodd, hmm]
        conv_rhs => rw [show e = e / 2 + e / 2 by omega]
        rw [pow_add]

theorem powMod_correct (b e m : Nat) : powMod b e m = b ^ e % m :=
  powModAux_correct e b e m le_rfl

theorem _ec_add_total (p1 p2 : ECPoint) : ∃ r, _ec_add p1 p2 = .ok r := by
  by_cases h1 : p1.inf = true
  · exact ⟨p2, by rw [_ec_add, if_pos h1]⟩
  by_cases h2 : p2.inf = true
  · exact ⟨p1, by rw [_ec_add, if_neg h1, if_pos h2]⟩
  by_cases h3 : p1.x = p2.x ∧ (p1.y ≠ p2.y ∨ p1.y = 0)
  · exact ⟨INF, by rw [_ec_add, if_neg h1, if_neg h2, if_pos h3]⟩
  by_cases h4 : p1.x = p2.x ∧ p1.y = p2.y
  · have hy : p1.y ≠ 0 := fun h0 => h3 ⟨h4.1, Or.inr h0⟩
    have hz : (2 : Int) * p1.y ≠ 0 := fun h => hy (by omega)
    simp only [_ec_add, if_neg h1, if_neg h2, if_neg h3, if_pos h4, _inv_mod, if_neg hz,
      Except.map]
    exact ⟨_, rfl⟩
  · have hx : p1.x ≠ p2.x := by
      intro heq
      by_cases hyy : p1.y = p2.y
      · exact h4 ⟨heq, hyy⟩
      · exact h3 ⟨heq, Or.inl hyy⟩
    have hz : p2.x - p1.x ≠ 0 := fun h => hx (by omega)
    simp only [_ec_add, if_neg h1, if_neg h2, if_neg h3, if_neg h4, _inv_mod, if_neg hz,
      Except.map]
    exact ⟨_, rfl⟩

theorem _ec_mul_loop_total :
    ∀ (fuel : Nat) (res add : ECPoint) (k : Nat), ∃ r, _ec_mul_loop fuel res add k = .ok r := by
  intro fuel
  induction fuel with
  | zero =>
    intro res add k
    cases k with
    | zero => exact ⟨res, rfl⟩
    | succ k => exact ⟨res, rfl⟩
  | succ fuel ih =>
    intro res add k
    cases k with
    | zero => exact ⟨res, rfl⟩
    | succ k =>
      obtain ⟨res', hres'⟩ : ∃ r, (if (k + 1) % 2 = 1 then _ec_add res add else .ok res) = .ok r := by
        by_cases h : (k + 1) % 2 = 1
        · rw [if_pos h]
          exact _ec_add_total res add
        · exact ⟨res, by rw [if_neg h]⟩
      obtain ⟨add', hadd'⟩ := _ec_add_total add add
      obtain ⟨r, hr⟩ := ih res' add' ((k + 1) / 2)
      exact ⟨r, by simp only [_ec_mul_loop, hres', hadd', hr]⟩

theorem _ec_mul_nonneg_total (k : Nat) (p : ECPoint) : ∃ r, _ec_mul_nonneg k p = .ok r := by
  rw [_ec_mul_nonneg]
  by_cases h : ((k : Int) % (SECP_N : Int) = 0 ∨ p.inf = true)
  · rw [if_pos h]
    exact ⟨INF, rfl⟩
  · rw [if_neg h]
    exact _ec_mul_loop_total k INF p k

theorem _ec_mul_total (k : Int) (p : ECPoint) : ∃ r, _ec_mul k p = .ok r := by
  rw [_ec_mul]
  by_cases h1 : k % (SECP_N : Int) = 0 ∨ p.inf = true
  · rw [if_pos h1]
    exact ⟨INF, rfl⟩
  · rw [if_neg h1]
    by_cases h2 : k < 0
    · rw [if_pos h2]
      exact _ec_mul_nonneg_total _ _
    · rw [if_neg h2]
      exact _ec_mul_nonneg_total _ _

/-- C8 (amended): `_inv_mod` fails with `DivisionByZero` exactly when its
argument is the integer `0` (not merely `≡ 0 mod P`), and for every nonzero
argument it returns `a ^ (P - 2) mod P` with no error. -/
theorem _inv_mod_spec (a : Int) :
    (_inv_mod a SECP_P = .error .divisionByZero ↔ a = 0) ∧
    (a ≠ 0 → _inv_mod a SECP_P = .ok ((a ^ (SECP_P - 2)) % (SECP_P : Int))) := by
  have hval : ∀ _ : a ≠ 0,
      ((powMod ((a % (SECP_P : Int)).toNat) (SECP_P - 2) SECP_P : Nat) : Int)
        = (a ^ (SECP_P - 2)) % (SECP_P : Int) := by
    intro _
    rw [powMod_correct]
    have hnn : (0 : Int) ≤ a % (SECP_P : Int) :=
      Int.emod_nonneg a (by norm_num [SECP_P])
    push_cast
    rw [Int.toNat_of_nonneg hnn]
    exact Int.ModEq.pow _ (Int.emod_emod_of_dvd a dvd_rfl)
  constructor
  · constructor
    · intro herr
      by_contra hne
      rw [_inv_mod, if_neg hne] at herr
      exact Except.noConfusion herr
    · intro h0
      rw [_inv_mod, if_pos h0]
  · intro hne
    rw [_inv_mod, if_neg hne, hval hne]

/-- C8 witness: a nonzero concrete argument. -/
theorem _inv_mod_spec_witness :
    _inv_mod 5 SECP_P = .ok (((5 : Int) ^ (SECP_P - 2)) % (SECP_P : Int)) :=
  (_inv_mod_spec 5).2 (by decide)

/-- C8 counterexample: `a = P` is `≡ 0 (mod P)` yet `_inv_mod` does not fail —
the zero test is on the unreduced integer, so the claim's "exactly when
`a ≡ 0 (mod P)`" is wrong. -/
theorem _inv_mod_of_P_no_error :
    ((SECP_P : Int) % (SECP_P : Int) = 0) ∧
      _inv_mod (SECP_P : Int) SECP_P ≠ .error .divisionByZero := by
  constructor
  · exact Int.emod_self
  · intro h
    rw [_inv_mod, if_neg (by norm_num [SECP_P])] at h
    exact Except.noConfusion h

/-- C7: multiplying the generator by `1` returns `G` unchanged, and any scalar
that is `0 mod N` (in particular `N` itself), or any point with the infinity
flag, yields the point at infinity. -/
theorem _ec_mul_identities :
    _ec_mul 1 G = .ok G ∧
    (∀ (k : Int) (p : ECPoint), k % (SECP_N : Int) = 0 ∨ p.inf = true →
      _ec_mul k p = .ok INF) := by
  constructor
  · rfl
  · intro k p h
    rw [_ec_mul, if_pos h]

/-- C7 witness: the curve order itself as the scalar. -/
theorem _ec_mul_identities_witness :
    _ec_mul (SECP_N : Int) G = .ok INF :=
  _ec_mul_identities.2 (SECP_N : Int) G (Or.inl Int.emod_self)

/-- C5: `privkey_to_pubkey` fails with `InvalidPrivateKey` exactly when the
input is not 32 bytes or encodes an integer outside `[1, N-1]`; for every
32-byte in-range input it succeeds and returns `(0x04 ‖ x ‖ y, x ‖ y)` for the
point derived by scalar-multiplying the generator. -/
theorem privkey_to_pubkey_spec (priv : List Nat) :
    (privkey_to_pubkey priv = .error .invalidPrivateKey ↔
      priv.length ≠ 32 ∨ fromBytesBE priv ≤ 0 ∨ SECP_N ≤ fromBytesBE priv) ∧
    (priv.length = 32 → 1 ≤ fromBytesBE priv → fromBytesBE priv < SECP_N →
      ∃ pt, _ec_mul (fromBytesBE priv : Int) G = .ok pt ∧
        privkey_to_pubkey priv = .ok
          (4 :: (toBytesBE 32 pt.x.toNat ++ toBytesBE 32 pt.y.toNat),
            toBytesBE 32 pt.x.toNat ++ toBytesBE 32 pt.y.toNat)) := by
  have hsucc : priv.length = 32 → 1 ≤ fromBytesBE priv → fromBytesBE priv < SECP_N →
      ∃ pt, _ec_mul (fromBytesBE priv : Int) G = .ok pt ∧
        privkey_to_pubkey priv = .ok
          (4 :: (toBytesBE 32 pt.x.toNat ++ toBytesBE 32 pt.y.toNat),
            toBytesBE 32 pt.x.toNat ++ toBytesBE 32 pt.y.toNat) := by
    intro hlen hlo hhi
    obtain ⟨pt, hpt⟩ := _ec_mul_total (fromBytesBE priv : Int) G
    refine ⟨pt, hpt, ?_⟩
    rw [privkey_to_pubkey, if_neg (by omega), if_neg (by omega), hpt]
  constructor
  · constructor
    · intro herr
      by_contra hcon
      push_neg at hcon
      obtain ⟨hlen, hlo, hhi⟩ := hcon
      obtain ⟨pt, _, hok⟩ := hsucc hlen (by omega) (by omega)
      rw [hok] at herr
      exact Except.noConfusion herr
    · intro h
      by_cases hlen : priv.length ≠ 32
      · rw [privkey_to_pubkey, if_pos hlen]
      · have hrange : fromBytesBE priv ≤ 0 ∨ SECP_N ≤ fromBytesBE priv := by
          rcases h with h | h
          · exact absurd h hlen
          · exact h
        rw [privkey_to_pubkey, if_neg hlen, if_pos hrange]
  · exact hsucc

/-! ### Primality of the secp256k1 field prime, via Lucas / Pratt certificates
checked with `powMod` -/

theorem powModAux_lt (fuel b e m : Nat) (hm : 0 < m) : powModAux fuel b e m < m := by
  cases fuel with
  | zero => exact Nat.mod_lt _ hm
  | succ fuel =>
    by_cases he : e = 0
    · simp only [powModAux, if_pos he]
      exact Nat.mod_lt _ hm
    · simp only [powModAux, if_neg he]
      by_cases hodd : e % 2 = 1
      · rw [if_pos hodd]
        exact Nat.mod_lt _ hm
      · rw [if_neg hodd]
        exact Nat.mod_lt _ hm

theorem powMod_lt (b e m : Nat) (hm : 0 < m) : powMod b e m < m :=
  powModAux_lt e b e m hm

theorem zmod_pow_natCast_powMod (p a e : Nat) :
    ((a : ZMod p)) ^ e = ((powMod a e p : Nat) : ZMod p) := by
  rw [powMod_correct, ZMod.natCast_mod, Nat.cast_pow]

theorem zmod_pow_eq_one_iff (p a e : Nat) (hp : 1 < p) :
    ((a : ZMod p) ^ e = 1) ↔ powMod a e p = 1 := by
  rw [zmod_pow_natCast_powMod p a e]
  constructor
  · intro h
    have h2 : ((powMod a e p : Nat) : ZMod p) = ((1 : Nat) : ZMod p) := by
      rw [h, Nat.cast_one]
    have h3 := (ZMod.natCast_eq_natCast_iff' _ _ _).mp h2
    have hlt : powMod a e p < p := powMod_lt a e p (by omega)
    rwa [Nat.mod_eq_of_lt hlt, Nat.mod_eq_of_lt hp] at h3
  · intro h
    rw [h, Nat.cast_one]

theorem prime_dvd_list_prod {q : Nat} (hq : q.Prime) :
    ∀ (l : List Nat), q ∣ l.prod → ∃ r ∈ l, q ∣ r := by
  intro l
  induction l with
  | nil =>
    intro h
    rw [List.prod_nil] at h
    exact absurd (Nat.dvd_one.mp h) hq.ne_one
  | cons x xs ih =>
    intro h
    rw [List.prod_cons] at h
    rcases (Nat.Prime.dvd_mul hq).mp h with h | h
    · exact ⟨x, by simp, h⟩
    · obtain ⟨r, hr, hqr⟩ := ih h
      exact ⟨r, by simp [hr], hqr⟩

/-- A checkable Lucas (Pratt) certificate: `a` has order `p - 1` in `ZMod p`,
witnessed through the executable `powMod` and a complete prime factor list of
`p - 1`. -/
theorem lucas_certificate (p a : Nat) (qs : List Nat) (hp : 1 < p)
    (hprod : qs.prod = p - 1)
    (hqs : ∀ q ∈ qs, q.Prime)
    (ha : powMod a (p - 1) p = 1)
    (hd : ∀ q ∈ qs, powMod a ((p - 1) / q) p ≠ 1) :
    p.Prime := by
  apply lucas_primality p (a : ZMod p)
  · rw [zmod_pow_eq_one_iff p a _ hp]
    exact ha
  · intro q hq hqdvd
    rw [Ne, zmod_pow_eq_one_iff p a _ hp]
    rw [← hprod] at hqdvd
    obtain ⟨r, hr, hqr⟩ := prime_dvd_list_prod hq qs hqdvd
    have hqeq : q = r := (Nat.prime_dvd_prime_iff_eq hq (hqs r hr)).mp hqr
    subst hqeq
    exact hd q hr

theorem prime_173378833005251801 : Nat.Prime 173378833005251801 :=
  lucas_certificate 173378833005251801 6 [2, 2, 2, 5, 5, 2621, 24809, 13331831]
    (by norm_num) (by decide)
    (by intro q hq; fin_cases hq <;> norm_num)
    (by decide)
    (by intro q hq; fin_cases hq <;> decide)

theorem prime_22149492674086928081353 : Nat.Prime 22149492674086928081353 :=
  lucas_certificate 22149492674086928081353 5 [2, 2, 2, 3, 5323, 173378833005251801]
    (by norm_num) (by decide)
    (by intro q hq; fin_cases hq <;> first | exact prime_173378833005251801 | norm_num)
    (by decide)
    (by intro q hq; fin_cases hq <;> decide)

theorem prime_132896956044521568488119 : Nat.Prime 132896956044521568488119 :=
  lucas_certificate 132896956044521568488119 6 [2, 3, 22149492674086928081353]
    (by norm_num) (by decide)
    (by intro q hq; fin_cases hq <;> first | exact prime_22149492674086928081353 | norm_num)
    (by decide)
    (by intro q hq; fin_cases hq <;> decide)

theorem prime_107590001 : Nat.Prime 107590001 :=
  lucas_certificate 107590001 3 [2, 2, 2, 2, 5, 5, 5, 5, 7, 29, 53]
    (by norm_num) (by decide)
    (by intro q hq; fin_cases hq <;> norm_num)
    (by decide)
    (by intro q hq; fin_cases hq <;> decide)

theorem prime_255515944373312847190720520512484175977 :
    Nat.Prime 255515944373312847190720520512484175977 :=
  lucas_certificate 255515944373312847190720520512484175977 3
    [2, 2, 2, 7, 7, 11, 1627, 2657, 4423, 41201, 96557, 7240687, 107590001]
    (by norm_num) (by decide)
    (by intro q hq; fin_cases hq <;> first | exact prime_107590001 | norm_num)
    (by decide)
    (by intro q hq; fin_cases hq <;> decide)

theorem prime_205115282021455665897114700593932402728804164701536103180137503955397371 :
    Nat.Prime
      205115282021455665897114700593932402728804164701536103180137503955397371 :=
  lucas_certificate
    205115282021455665897114700593932402728804164701536103180137503955397371 10
    [2, 3, 5, 29, 29, 31, 7723, 132896956044521568488119,
      255515944373312847190720520512484175977]
    (by norm_num) (by decide)
    (by intro q hq; fin_cases hq <;>
      first
        | exact prime_132896956044521568488119
        | exact prime_255515944373312847190720520512484175977
        | norm_num)
    (by decide)
    (by intro q hq; fin_cases hq <;> decide)

/-- The secp256k1 field modulus is prime (Pratt certificate checked through
`powMod`). -/
theorem secp_p_prime : Nat.Prime SECP_P :=
  lucas_certificate SECP_P 3
    [2, 3, 7, 13441,
      205115282021455665897114700593932402728804164701536103180137503955397371]
    (by norm_num [SECP_P]) (by decide)
    (by intro q hq; fin_cases hq <;>
      first
        | exact
            prime_205115282021455665897114700593932402728804164701536103180137503955397371
        | norm_num)
    (by decide)
    (by intro q hq; fin_cases hq <;> decide)

instance : Fact (Nat.Prime SECP_P) := ⟨secp_p_prime⟩

/-! ### Transfer to the Mathlib Weierstrass curve over `ZMod P` -/

/-- The secp256k1 short-Weierstrass curve `y² = x³ + 7` over `ZMod P`
(verification artifact for the curve-invariant claim). -/
def secpCurve : WeierstrassCurve.Affine (ZMod SECP_P) :=
  { a₁ := 0, a₂ := 0, a₃ := 0, a₄ := 0, a₆ := 7 }

theorem secpCurve_equation_iff (x y : ZMod SECP_P) :
    secpCurve.Equation x y ↔ y ^ 2 = x ^ 3 + 7 := by
  rw [WeierstrassCurve.Affine.equation_iff]
  simp only [secpCurve, zero_mul, mul_zero, add_zero, zero_add]

theorem secp_p_pos : 0 < SECP_P := by
  have := secp_p_prime.two_le
  omega

theorem secp_p_int_pos : (0 : Int) < (SECP_P : Int) := by
  exact_mod_cast secp_p_pos

theorem intCast_injOn_range {a b : Int} (ha0 : 0 ≤ a) (haP : a < (SECP_P : Int))
    (hb0 : 0 ≤ b) (hbP : b < (SECP_P : Int))
    (h : (a : ZMod SECP_P) = (b : ZMod SECP_P)) : a = b := by
  have h2 := (ZMod.intCast_eq_intCast_iff' a b SECP_P).mp h
  rwa [Int.emod_eq_of_lt ha0 haP, Int.emod_eq_of_lt hb0 hbP] at h2

theorem zmod_pow_sub_two_eq_inv {a : ZMod SECP_P} (ha : a ≠ 0) :
    a ^ (SECP_P - 2) = a⁻¹ := by
  have hp2 : 2 ≤ SECP_P := secp_p_prime.two_le
  have h1 : a ^ (SECP_P - 2) * a = 1 := by
    rw [← pow_succ, show SECP_P - 2 + 1 = SECP_P - 1 by omega]
    exact ZMod.pow_card_sub_one_eq_one ha
  exact eq_inv_of_mul_eq_one_left h1

/-- The value `_inv_mod` computes is, over `ZMod P`, the genuine field inverse
of its (nonzero-mod-`P`) argument. -/
theorem inv_mod_cast_eq {d : Int} (hd : (d : ZMod SECP_P) ≠ 0) :
    ((powMod ((d % (SECP_P : Int)).toNat) (SECP_P - 2) SECP_P : Nat) : ZMod SECP_P)
      = (d : ZMod SECP_P)⁻¹ := by
  rw [powMod_correct, ZMod.natCast_mod, Nat.cast_pow]
  have hnn : 0 ≤ d % (SECP_P : Int) := Int.emod_nonneg d secp_p_int_pos.ne'
  have hcast : (((d % (SECP_P : Int)).toNat : Nat) : ZMod SECP_P) = (d : ZMod SECP_P) := by
    rw [← Int.cast_natCast, Int.toNat_of_nonneg hnn, ZMod.intCast_mod]
  rw [hcast, zmod_pow_sub_two_eq_inv hd]

/-- Equation transfer: the `onCurve` congruence for non-infinite points is the
Mathlib `Equation` over `ZMod P`. -/
theorem onCurve_equation {x y : Int}
    (h : y ^ 2 % (SECP_P : Int) = (x ^ 3 + 7) % (SECP_P : Int)) :
    secpCurve.Equation (x : ZMod SECP_P) (y : ZMod SECP_P) := by
  rw [secpCurve_equation_iff]
  have h2 := (ZMod.intCast_eq_intCast_iff' (y ^ 2) (x ^ 3 + 7) SECP_P).mpr h
  push_cast at h2
  exact h2

/-- The affine addition/doubling formulas of `_ec_add` produce a point whose
reduced coordinates again satisfy the curve invariant, provided the slope
matches Mathlib's `slope`. -/
theorem ec_formula_onCurve (x1 y1 x2 y2 lam : Int)
    (hE1 : secpCurve.Equation (x1 : ZMod SECP_P) (y1 : ZMod SECP_P))
    (hE2 : secpCurve.Equation (x2 : ZMod SECP_P) (y2 : ZMod SECP_P))
    (hlam : (lam : ZMod SECP_P) =
      secpCurve.slope (x1 : ZMod SECP_P) (x2 : ZMod SECP_P) (y1 : ZMod SECP_P) (y2 : ZMod SECP_P))
    (hxy : (x1 : ZMod SECP_P) = (x2 : ZMod SECP_P) →
      (y1 : ZMod SECP_P) ≠ secpCurve.negY (x2 : ZMod SECP_P) (y2 : ZMod SECP_P)) :
    onCurve { x := (lam * lam - x1 - x2) % (SECP_P : Int),
              y := (lam * (x1 - (lam * lam - x1 - x2) % (SECP_P : Int)) - y1) % (SECP_P : Int),
              inf := false } := by
  have hadd := WeierstrassCurve.Affine.equation_add hE1 hE2 hxy
  rw [secpCurve_equation_iff, ← hlam] at hadd
  simp only [WeierstrassCurve.Affine.addY, WeierstrassCurve.Affine.negAddY,
    WeierstrassCurve.Affine.negY, WeierstrassCurve.Affine.addX, secpCurve] at hadd
  refine Or.inr ⟨Int.emod_nonneg _ secp_p_int_pos.ne', Int.emod_lt_of_pos _ secp_p_int_pos,
    Int.emod_nonneg _ secp_p_int_pos.ne', Int.emod_lt_of_pos _ secp_p_int_pos, ?_⟩
  refine (ZMod.intCast_eq_intCast_iff' _ _ _).mp ?_
  push_cast
  linear_combination hadd

/-- C6: point addition preserves the curve invariant: adding two `ECPoint`s
that are each the point at infinity or on the curve (coordinates in `[0, P)`
with `y² ≡ x³ + 7 (mod P)`) succeeds and yields such a point again. -/
theorem _ec_add_preserves_onCurve (p1 p2 : ECPoint)
    (h1 : onCurve p1) (h2 : onCurve p2) :
    ∃ r, _ec_add p1 p2 = .ok r ∧ onCurve r := by
  by_cases hi1 : p1.inf = true
  · exact ⟨p2, by rw [_ec_add, if_pos hi1], h2⟩
  by_cases hi2 : p2.inf = true
  · exact ⟨p1, by rw [_ec_add, if_neg hi1, if_pos hi2], h1⟩
  by_cases h3 : p1.x = p2.x ∧ (p1.y ≠ p2.y ∨ p1.y = 0)
  · exact ⟨INF, by rw [_ec_add, if_neg hi1, if_neg hi2, if_pos h3], Or.inl rfl⟩
  rcases h1 with h1 | ⟨hx1a, hx1b, hy1a, hy1b, heq1⟩
  · exact absurd h1 hi1
  rcases h2 with h2 | ⟨hx2a, hx2b, hy2a, hy2b, heq2⟩
  · exact absurd h2 hi2
  have hE1 := onCurve_equation heq1
  have hE2 := onCurve_equation heq2
  have h2ne : ((2 : Int) : ZMod SECP_P) ≠ 0 := by
    intro h
    have h' : (2 : Int) = 0 := by
      refine intCast_injOn_range (by norm_num) (by norm_num [SECP_P]) le_rfl secp_p_int_pos ?_
      rw [h]
      norm_num
    norm_num at h'
  by_cases h4 : p1.x = p2.x ∧ p1.y = p2.y
  · -- doubling branch
    have hy0 : p1.y ≠ 0 := fun h0 => h3 ⟨h4.1, Or.inr h0⟩
    have hdz : ¬(2 * p1.y = 0) := fun h => hy0 (by omega)
    have hY1ne : (p1.y : ZMod SECP_P) ≠ 0 := by
      intro h
      refine hy0 (intCast_injOn_range hy1a hy1b le_rfl secp_p_int_pos ?_)
      rw [h]
      norm_num
    have hXeq : (p1.x : ZMod SECP_P) = (p2.x : ZMod SECP_P) := by rw [h4.1]
    have hYeq : (p1.y : ZMod SECP_P) = (p2.y : ZMod SECP_P) := by rw [h4.2]
    have hdcast : ((2 * p1.y : Int) : ZMod SECP_P) ≠ 0 := by
      push_cast
      intro h
      rcases mul_eq_zero.mp h with hc | hc
      · exact h2ne (by push_cast; exact hc)
      · exact hY1ne hc
    have hnegY : (p1.y : ZMod SECP_P) ≠
        secpCurve.negY (p2.x : ZMod SECP_P) (p2.y : ZMod SECP_P) := by
      simp only [WeierstrassCurve.Affine.negY, secpCurve, zero_mul, sub_zero]
      rw [← hYeq]
      intro h
      have h2y : ((2 : Int) : ZMod SECP_P) * (p1.y : ZMod SECP_P) = 0 := by
        push_cast
        linear_combination h
      rcases mul_eq_zero.mp h2y with hc | hc
      · exact h2ne hc
      · exact hY1ne hc
    have hxy' : (p1.x : ZMod SECP_P) = (p2.x : ZMod SECP_P) →
        (p1.y : ZMod SECP_P) ≠ secpCurve.negY (p2.x : ZMod SECP_P) (p2.y : ZMod SECP_P) :=
      fun _ => hnegY
    have hden : ((2 * p1.y : Int) : ZMod SECP_P)
        = (p1.y : ZMod SECP_P) -
          secpCurve.negY (p1.x : ZMod SECP_P) (p1.y : ZMod SECP_P) := by
      simp only [WeierstrassCurve.Affine.negY, secpCurve, zero_mul, sub_zero]
      push_cast
      ring
    have hdenne : (p1.y : ZMod SECP_P) -
        secpCurve.negY (p1.x : ZMod SECP_P) (p1.y : ZMod SECP_P) ≠ 0 := by
      rw [← hden]
      exact hdcast
    have hlam : (((3 * p1.x * p1.x *
          ((powMod ((2 * p1.y % (SECP_P : Int)).toNat) (SECP_P - 2) SECP_P : Nat) : Int)) %
            (SECP_P : Int) : Int) : ZMod SECP_P)
        = secpCurve.slope (p1.x : ZMod SECP_P) (p2.x : ZMod SECP_P) (p1.y : ZMod SECP_P)
            (p2.y : ZMod SECP_P) := by
      rw [WeierstrassCurve.Affine.slope_of_Y_ne hXeq hnegY]
      push_cast
      rw [inv_mod_cast_eq hdcast, eq_div_iff hdenne, ← hden]
      push_cast
      rw [mul_assoc, inv_mul_cancel₀ (show (2 : ZMod SECP_P) * (p1.y : ZMod SECP_P) ≠ 0 from
        by push_cast at hdcast; exact hdcast), mul_one]
      simp only [secpCurve, zero_mul, mul_zero, add_zero, sub_zero]
      ring
    simp only [_ec_add, if_neg hi1, if_neg hi2, if_neg h3, if_pos h4, _inv_mod, if_neg hdz,
      Except.map]
    exact ⟨_, rfl, ec_formula_onCurve p1.x p1.y p2.x p2.y _ hE1 hE2 hlam hxy'⟩
  · -- distinct-x branch
    have hxne : p1.x ≠ p2.x := by
      intro heq
      by_cases hyy : p1.y = p2.y
      · exact h4 ⟨heq, hyy⟩
      · exact h3 ⟨heq, Or.inl hyy⟩
    have hdz : ¬(p2.x - p1.x = 0) := fun h => hxne (by omega)
    have hXne : (p1.x : ZMod SECP_P) ≠ (p2.x : ZMod SECP_P) := by
      intro h
      exact hxne (intCast_injOn_range hx1a hx1b hx2a hx2b h)
    have hsubne : (p2.x : ZMod SECP_P) - (p1.x : ZMod SECP_P) ≠ 0 :=
      sub_ne_zero_of_ne (Ne.symm hXne)
    have hsubne' : (p1.x : ZMod SECP_P) - (p2.x : ZMod SECP_P) ≠ 0 :=
      sub_ne_zero_of_ne hXne
    have hdcast : ((p2.x - p1.x : Int) : ZMod SECP_P) ≠ 0 := by
      push_cast
      exact hsubne
    have hxy' : (p1.x : ZMod SECP_P) = (p2.x : ZMod SECP_P) →
        (p1.y : ZMod SECP_P) ≠ secpCurve.negY (p2.x : ZMod SECP_P) (p2.y : ZMod SECP_P) :=
      fun h => absurd h hXne
    have hlam : ((((p2.y - p1.y) *
          ((powMod (((p2.x - p1.x) % (SECP_P : Int)).toNat) (SECP_P - 2) SECP_P : Nat) : Int)) %
            (SECP_P : Int) : Int) : ZMod SECP_P)
        = secpCurve.slope (p1.x : ZMod SECP_P) (p2.x : ZMod SECP_P) (p1.y : ZMod SECP_P)
            (p2.y : ZMod SECP_P) := by
      rw [WeierstrassCurve.Affine.slope_of_X_ne hXne]
      push_cast
      rw [inv_mod_cast_eq hdcast, eq_div_iff hsubne']
      push_cast
      rw [show ((p1.x : ZMod SECP_P) - (p2.x : ZMod SECP_P))
          = -((p2.x : ZMod SECP_P) - (p1.x : ZMod SECP_P)) by ring]
      rw [mul_neg, mul_assoc, inv_mul_cancel₀ (by push_cast at hdcast; exact hdcast), mul_one]
      ring
    simp only [_ec_add, if_neg hi1, if_neg hi2, if_neg h3, if_neg h4, _inv_mod, if_neg hdz,
      Except.map]
    exact ⟨_, rfl, ec_formula_onCurve p1.x p1.y p2.x p2.y _ hE1 hE2 hlam hxy'⟩

/-- C6 witness: doubling the generator point. -/
theorem _ec_add_preserves_onCurve_witness :
    ∃ r, _ec_add G G = .ok r ∧ onCurve r :=
  _ec_add_preserves_onCurve G G (by decide) (by decide)

/-- C5 witness: the 32-byte big-endian encoding of `1`. -/
theorem privkey_to_pubkey_spec_witness :
    ∃ pt, _ec_mul (fromBytesBE (List.replicate 31 0 ++ [1]) : Int) G = .ok pt ∧
      privkey_to_pubkey (List.replicate 31 0 ++ [1]) = .ok
        (4 :: (toBytesBE 32 pt.x.toNat ++ toBytesBE 32 pt.y.toNat),
          toBytesBE 32 pt.x.toNat ++ toBytesBE 32 pt.y.toNat) :=
  (privkey_to_pubkey_spec (List.replicate 31 0 ++ [1])).2 (by decide) (by decide) (by decide)

end Keywizard
